import Mathlib

/-!
Verification of the int8 fixed-point golden models of this repository.

The Python sources are shallowly embedded: Python arbitrary-precision
integers become `ℤ`/`ℕ`; the idiom `x & (2^w - 1)` becomes `x % 2^w`
(Euclidean mod, identical to Python `%` and `&` with an all-ones mask);
Python's arithmetic right shift `x >> n` becomes `x / 2^n` (Euclidean
division by a positive constant, which is floor division, identical to
Python); lookup tables and raw tensor memories become functions `ℕ → _`;
Python floats are modelled as real numbers.
-/

namespace RedEyes

/-- Unsigned byte to signed int8 (`to_signed8` / `as_signed8` in the
Python sources): `b - 256 if b >= 128 else b`. -/
def to_signed8 (b : ℤ) : ℤ :=
  if b ≥ 128 then b - 256 else b

/-- Clamp to the int8 range (`clamp8` in validate_matvec.py). -/
def clamp8 (v : ℤ) : ℤ :=
  if v > 127 then 127 else if v < -128 then -128 else v

/-- Wrap to signed 24-bit, as `mask24` in validate_matvec.py:
`v &= 0xFFFFFF; return v - 0x1000000 if v >= 0x800000 else v`. -/
def mask24 (v : ℤ) : ℤ :=
  if v % 2 ^ 24 ≥ 2 ^ 23 then v % 2 ^ 24 - 2 ^ 24 else v % 2 ^ 24

/-! ## Requantization kernel (validate_requant.py, `golden_requant`) -/

/-- `golden_requant` from validate_requant.py: multiply the signed
accumulator by the unsigned scale, reinterpret the low `acc_w + scale_w`
bits as two's complement, arithmetic-shift right, clamp to int8, return
as an unsigned byte (`clamped & 0xFF`). -/
def golden_requant (acc scale : ℤ) (shift acc_w scale_w : ℕ) : ℤ :=
  let prod_w := acc_w + scale_w
  let product := acc * scale
  let product := product % 2 ^ prod_w
  let product := if product ≥ 2 ^ (prod_w - 1) then product - 2 ^ prod_w else product
  let shifted := product / 2 ^ shift
  let clamped := max (-128) (min 127 shifted)
  clamped % 2 ^ 8

/-! ## Embedding combiner (validate_embedding.py, `golden_byte`) -/

/-- `golden_byte` from validate_embedding.py: 9-bit two's-complement sum
of the two signed bytes, then bits `[8:1]` as the output byte:
`s9 = (t + p) & 0x1FF; return (s9 >> 1) & 0xFF`. -/
def golden_byte (t_unsigned p_unsigned : ℤ) : ℤ :=
  let t := to_signed8 t_unsigned
  let p := to_signed8 p_unsigned
  let s9 := (t + p) % 2 ^ 9
  (s9 / 2 ^ 1) % 2 ^ 8

/-! ## MatVec kernel (validate_matvec.py)

`golden_matvec` and `ref_int8_matvec` read the raw bytes of a 128×128
int8 weight tensor and multiply it by the all-ones vector: for each row
they accumulate the signed weight bytes (golden: re-wrapping to signed
24 bits after every partial addition; ref: full precision), then
arithmetic-shift right by 7 and clamp to int8.  The raw tensor memory is
modelled as a function from flat index to byte value. -/

/-- Accumulator of `golden_matvec` after folding the first `n` columns of
row `row` (24-bit wrap after every partial addition). -/
def goldenAccUpTo (raw : ℕ → ℤ) (row n : ℕ) : ℤ :=
  (List.range n).foldl (fun acc col => mask24 (acc + to_signed8 (raw (row * 128 + col)))) 0

/-- Per-row output of `golden_matvec`: `clamp8(acc >> 7)` with the
24-bit wrapping accumulator over all 128 columns. -/
def golden_matvec (raw : ℕ → ℤ) (row : ℕ) : ℤ :=
  clamp8 (goldenAccUpTo raw row 128 / 2 ^ 7)

/-- Accumulator of `ref_int8_matvec` after folding the first `n` columns
of row `row` (full-precision accumulation, no wrap). -/
def refAccUpTo (raw : ℕ → ℤ) (row n : ℕ) : ℤ :=
  (List.range n).foldl (fun acc col => acc + to_signed8 (raw (row * 128 + col))) 0

/-- Per-row output of `ref_int8_matvec`: `clamp8(acc >> 7)` with the
full-precision accumulator over all 128 columns. -/
def ref_int8_matvec (raw : ℕ → ℤ) (row : ℕ) : ℤ :=
  clamp8 (refAccUpTo raw row 128 / 2 ^ 7)

/-- The all-127 weight memory used by the C5 test vector. -/
def raw127 : ℕ → ℤ := fun _ => 127

/-! ## Weight archive codec (train.py `export_weights_int8`,
validate_matvec.py `parse_bin`)

A byte stream is a `List ℕ` of values below 256.  A tensor record is the
parsed form: UTF-8 name bytes, shape, the raw 32-bit IEEE754 scale bit
pattern (`scale_hex` in `parse_bin`; `export_weights_int8` writes the
four little-endian bytes of that pattern via `struct.pack`), and the raw
int8 data bytes. -/

/-- A parsed tensor record of the archive. -/
structure Tensor where
  name : List ℕ
  shape : List ℕ
  scale_bits : ℕ
  data : List ℕ
  deriving DecidableEq

/-- The ASCII bytes of the 8-byte magic, spelling `TFPGA001`. -/
def magicBytes : List ℕ := [84, 70, 80, 71, 65, 48, 48, 49]

/-- Little-endian 4-byte encoding of a 32-bit unsigned integer,
as `struct.pack` with format `<I` (and `<f` for the scale pattern). -/
def u32le (n : ℕ) : List ℕ :=
  [n % 256, n / 256 % 256, n / 65536 % 256, n / 16777216 % 256]

/-- The byte run `export_weights_int8` writes for one tensor:
name length, name bytes, ndim, the dims, the 4 scale bytes, raw data. -/
def serializeTensor (t : Tensor) : List ℕ :=
  u32le t.name.length ++ t.name ++ u32le t.shape.length ++
    t.shape.flatMap u32le ++ u32le t.scale_bits ++ t.data

/-- `export_weights_int8` from train.py: magic, tensor count, then each
tensor record in order. -/
def export_weights_int8 (ts : List Tensor) : List ℕ :=
  magicBytes ++ u32le ts.length ++ ts.flatMap serializeTensor

/-- Read 4 bytes as a little-endian uint32, as
`struct.unpack("<I", f.read(4))`; `struct.error` on short input becomes
`none`. -/
def readU32 : List ℕ → Option (ℕ × List ℕ)
  | b0 :: b1 :: b2 :: b3 :: rest => some (b0 + 256 * b1 + 65536 * b2 + 16777216 * b3, rest)
  | _ => none

/-- Read `n` consecutive little-endian uint32 values (the shape dims). -/
def readU32s : ℕ → List ℕ → Option (List ℕ × List ℕ)
  | 0, bs => some ([], bs)
  | n + 1, bs => do
    let (v, bs1) ← readU32 bs
    let (vs, bs2) ← readU32s n bs1
    some (v :: vs, bs2)

/-- Parse one tensor record as the loop body of `parse_bin` does:
name length, name (`f.read` returns at most the remaining bytes; the
ASCII decode fails on any byte ≥ 128), ndim, dims, scale bytes, then
`size = product(shape)` data bytes with the `len(data) == size`
assertion. -/
def parseTensor (bs : List ℕ) : Option (Tensor × List ℕ) := do
  let (nl, bs1) ← readU32 bs
  let name := bs1.take nl
  let bs2 := bs1.drop nl
  if name.all (fun b => b < 128) then
    let (ndim, bs3) ← readU32 bs2
    let (shape, bs4) ← readU32s ndim bs3
    let (scale_bits, bs5) ← readU32 bs4
    let size := shape.prod
    let data := bs5.take size
    if data.length = size then some (⟨name, shape, scale_bits, data⟩, bs5.drop size) else none
  else none

/-- Parse `n` consecutive tensor records. -/
def parseTensors : ℕ → List ℕ → Option (List Tensor × List ℕ)
  | 0, bs => some ([], bs)
  | n + 1, bs => do
    let (t, bs1) ← parseTensor bs
    let (ts, bs2) ← parseTensors n bs1
    some (t :: ts, bs2)

/-- `parse_bin` from validate_matvec.py: assert the magic, read the
count, parse that many records.  Bytes left over after the declared
count are never examined. -/
def parse_bin (bs : List ℕ) : Option (List Tensor) :=
  if bs.take 8 = magicBytes then do
    let (num, bs1) ← readU32 (bs.drop 8)
    let (ts, _) ← parseTensors num bs1
    some ts
  else none

/-- A well-formed tensor: every length/dim representable as uint32,
positive dims, ASCII name, byte-valued data of length `product(shape)`. -/
def validTensor (t : Tensor) : Prop :=
  t.name.length < 2 ^ 32 ∧ (∀ b ∈ t.name, b < 128) ∧
  t.shape.length < 2 ^ 32 ∧ (∀ d ∈ t.shape, 0 < d ∧ d < 2 ^ 32) ∧
  t.scale_bits < 2 ^ 32 ∧ t.data.length = t.shape.prod ∧ (∀ b ∈ t.data, b < 256)

instance (t : Tensor) : Decidable (validTensor t) := by
  unfold validTensor
  infer_instance

/-- A well-formed tensor set: uint32-representable count, each tensor
well formed. -/
def validTensors (ts : List Tensor) : Prop :=
  ts.length < 2 ^ 32 ∧ ∀ t ∈ ts, validTensor t

instance (ts : List Tensor) : Decidable (validTensors ts) := by
  unfold validTensors
  infer_instance

/-- The C1 counterexample tensor: its name is the UTF-8 encoding of a
single non-ASCII character (`É` is `0xC3 0x89`), its single dim is
positive, and its data length matches `product(shape)`. -/
def cexTensor : Tensor := ⟨[195, 137], [1], 0, [0]⟩

/-! ## Inverse square root kernel (validate_inv_sqrt.py and
validate_layernorm.py, `golden_inv_sqrt`; gen_inv_sqrt_lut.py,
`generate_lut`)

The two validators carry textually identical copies of
`golden_inv_sqrt`, differing only in the configured width (`D_W = 14`
for the standalone test, `ISQRT_DW = 17` inside LayerNorm), so it is
embedded once with the width as a parameter. -/

/-- The leading-one-detection loop of `golden_inv_sqrt`:
`for i in range(dw): if d & (1 << i): k = i`. -/
def lodK (dw d : ℕ) : ℕ :=
  (List.range dw).foldl (fun k i => if d.testBit i then i else k) 0

/-- `golden_inv_sqrt`: `d = 0` returns `0xFFFF`; otherwise normalize `d`
so the leading one sits at bit `dw - 1`, take the 8 bits below it as the
mantissa, address the 512-entry LUT with `{k & 1, mantissa}` and shift
the entry right by `k >> 1`. -/
def golden_inv_sqrt (dw : ℕ) (lut : ℕ → ℤ) (d : ℕ) : ℤ :=
  if d = 0 then 0xFFFF
  else
    let k := lodK dw d
    let d_norm := d * 2 ^ (dw - 1 - k) % 2 ^ dw
    let mantissa := d_norm / 2 ^ (dw - 9) % 256
    let lut_addr := k % 2 * 256 + mantissa
    lut lut_addr / 2 ^ (k / 2)

/-- `generate_lut` from gen_inv_sqrt_lut.py as a function from the 9-bit
address `{k_lsb, m}`: even bank `round(2^15 / sqrt(1 + m/256))`, odd
bank `round(2^15 / sqrt(2 (1 + m/256)))`, saturated at 65535 (the float
arithmetic is modelled over the reals). -/
noncomputable def generate_lut (i : ℕ) : ℤ :=
  let k_lsb := i / 256 % 2
  let m := i % 256
  let normalized : ℝ := 1 + (m : ℝ) / 256
  let val : ℝ := if k_lsb = 0 then 1 / Real.sqrt normalized else 1 / Real.sqrt (2 * normalized)
  min (round (val * 32768)) 65535

/-! ## LayerNorm kernel (validate_layernorm.py, `golden_layernorm`) -/

/-- `golden_layernorm`: mean by shift, centered variance accumulation,
`inv_sqrt(var_acc >> 7)` at width 17, then per channel the 33-bit-wrapped
triple product, round-to-nearest shift, beta addition wrapped to 18 bits,
and the int8 clamp `max(-128, min(127, biased))`. -/
def golden_layernorm (inputs : Fin 128 → ℤ) (gamma_bytes beta_bytes : Fin 128 → ℤ)
    (isqrt_lut : ℕ → ℤ) (i : Fin 128) : ℤ :=
  let total := ∑ j, inputs j
  let mean := total / 2 ^ 7
  let centered := fun j => inputs j - mean
  let var_acc := ∑ j, centered j * centered j
  let isqrt_input := var_acc / 2 ^ 7
  let inv_std := golden_inv_sqrt 17 isqrt_lut isqrt_input.toNat
  let diff := centered i
  let g := to_signed8 (gamma_bytes i)
  let b := to_signed8 (beta_bytes i)
  let full_prod := diff * inv_std * g
  let full_prod := if full_prod % 2 ^ 33 ≥ 2 ^ 32 then full_prod % 2 ^ 33 - 2 ^ 33
    else full_prod % 2 ^ 33
  let biased := (full_prod + 16384) / 2 ^ 15 + b
  let biased := if biased % 2 ^ 18 ≥ 2 ^ 17 then biased % 2 ^ 18 - 2 ^ 18 else biased % 2 ^ 18
  max (-128) (min 127 biased)

/-! ## GELU LUT generator (gen_gelu_lut.py, `build_gelu_lut`)

PyTorch `F.gelu` is `x * Φ(x)` with `Φ` the standard normal CDF; the
float arithmetic is modelled over the reals. -/

/-- The standard normal CDF. -/
noncomputable def gauss_cdf (x : ℝ) : ℝ :=
  (∫ t in Set.Iic x, Real.exp (-(t ^ 2) / 2)) / Real.sqrt (2 * Real.pi)

/-- The exact GELU activation `x * Φ(x)`. -/
noncomputable def gelu (x : ℝ) : ℝ := x * gauss_cdf x

/-- `build_gelu_lut` from gen_gelu_lut.py as a function of the input
byte: interpret the byte as a signed int8 value `v`, evaluate
`gelu(v * act_scale) / act_scale`, round, clamp to int8, and store as an
unsigned byte (`v.item() & 0xFF`). -/
noncomputable def build_gelu_lut (act_scale : ℝ) (i : ℕ) : ℤ :=
  let v : ℤ := if i ≥ 128 then (i : ℤ) - 256 else (i : ℤ)
  let x := (v : ℝ) * act_scale
  let y := gelu x
  let q := max (-128) (min 127 (round (y / act_scale)))
  q % 2 ^ 8

/-- The concatenated per-layer GELU BRAM of gen_gelu_lut.py:
`addr[9:8]` selects the layer, `addr[7:0]` is the input byte. -/
noncomputable def gelu_lut_combined (act_scales : ℕ → ℝ) (addr : ℕ) : ℤ :=
  build_gelu_lut (act_scales (addr / 256)) (addr % 256)

/-! ## Softmax + bipartite exponential (validate_softmax.py)

The Q4.7 distances and all table values are integers; the two LUTs are
modelled as functions from the index. -/

/-- The `ln(1 + s/16) * 128` table `LN1PS_LUT` of validate_softmax.py. -/
def LN1PS_LUT : List ℤ := [0, 8, 15, 22, 29, 35, 41, 47, 53, 58, 63, 68, 73, 78, 82, 87]

/-- `bipartite_exp`: clip at `D_CLIP = 2048`, split the 11 input bits
into `x0` (5 high), `x1` (3 mid), `x2` (3 low), add the two table
entries at `{x0, x1}` and `{x0, x2}`, clamp to `[0, 32768]`. -/
def bipartite_exp (lut0 lut1 : ℤ → ℤ) (d_q47 : ℤ) : ℤ :=
  if d_q47 ≥ 2048 then 0
  else
    let x0 := d_q47 / 2 ^ 6 % 2 ^ 5
    let x1 := d_q47 / 2 ^ 3 % 2 ^ 3
    let x2 := d_q47 % 2 ^ 3
    let val := lut0 (x0 * 8 + x1) + lut1 (x0 * 8 + x2)
    if val < 0 then 0 else if val > 32768 then 32768 else val

/-- `lod24`: position of the leading one of a 24-bit value. -/
def lod24 (val : ℤ) : ℕ :=
  if val = 0 then 0
  else (List.range 24).foldl (fun k i => if val / 2 ^ i % 2 = 1 then i else k) 0

/-- `lod_mantissa`: the 4 bits below the leading one. -/
def lod_mantissa (val : ℤ) (k : ℕ) : ℤ :=
  if k ≥ 4 then val / 2 ^ (k - 4) % 2 ^ 4 else val * 2 ^ (4 - k) % 2 ^ 4

/-- `max(inputs)` of a Python list (callers guarantee nonemptiness). -/
def maxVal : List ℤ → ℤ
  | [] => 0
  | x :: xs => xs.foldl max x

/-- The Q4.7 distance of one logit from the maximum, clipped to 2048
once the integer part reaches 16 (phase 2 of `golden_softmax`). -/
def softmax_d (max_val x : ℤ) : ℤ :=
  let d_raw := max_val - x
  let d_int := d_raw / 2 ^ 7
  let d_frac := d_raw % 2 ^ 7
  if d_int ≥ 16 then 2048 else d_int * 2 ^ 7 + d_frac

/-- The exponential sum of phase 2, saturated to 24 bits once at the
end (`sum_acc = min(sum_acc, 0xFFFFFF)`). -/
def softmax_sum_acc (inputs : List ℤ) (lut0 lut1 : ℤ → ℤ) : ℤ :=
  min ((inputs.map fun x => bipartite_exp lut0 lut1 (softmax_d (maxVal inputs) x)).sum) 16777215

/-- Phase 3 of `golden_softmax`: the Q4.7 logarithm correction
`clamp((k - 15) * round(ln2 * 128) + LN1PS[s], 0, 2048)` from the
leading-one decomposition of the saturated sum; an all-zero sum yields
the clip value 2048. -/
def softmax_ln_offset (inputs : List ℤ) (lut0 lut1 : ℤ → ℤ) : ℤ :=
  let sum_acc := softmax_sum_acc inputs lut0 lut1
  if sum_acc = 0 then 2048
  else
    let k := lod24 sum_acc
    let s := lod_mantissa sum_acc k
    let kln2 := ((k : ℤ) - 15) * 89
    let ln1ps := LN1PS_LUT.getD s.toNat 0
    let ln_raw := kln2 + ln1ps
    if ln_raw < 0 then 0 else if ln_raw ≥ 2048 then 2048 else ln_raw

/-- Phase 4 of `golden_softmax` for one logit: recompute the clipped
distance, add the logarithm correction, clip, and look up the bipartite
exponential. -/
def softmax_norm_out (max_val ln_offset : ℤ) (lut0 lut1 : ℤ → ℤ) (x : ℤ) : ℤ :=
  let d_raw := max_val - x
  let d_int := d_raw / 2 ^ 7
  let d_frac := d_raw % 2 ^ 7
  let d_q47 := if d_int ≥ 16 then 2048 else d_int * 2 ^ 7 + d_frac
  let d_plus_ln := d_q47 + ln_offset
  let d_norm := if d_int ≥ 16 ∨ d_plus_ln ≥ 2048 then 2048 else d_plus_ln
  bipartite_exp lut0 lut1 d_norm

/-- `golden_softmax`: the full hardware softmax pipeline. -/
def golden_softmax (inputs : List ℤ) (lut0 lut1 : ℤ → ℤ) : List ℤ :=
  inputs.map (softmax_norm_out (maxVal inputs) (softmax_ln_offset inputs lut0 lut1) lut0 lut1)

/-- First LUT of the C4 counterexample pair. -/
def cexLut0 : ℤ → ℤ := fun i => if i = 0 then 16334 else 0

/-- Second (correction) LUT of the C4 counterexample pair. -/
def cexLut1 : ℤ → ℤ := fun i => if i = 1 then 100 else 0

lemma mask24_eq_self {v : ℤ} (h1 : -(2 ^ 23) ≤ v) (h2 : v < 2 ^ 23) : mask24 v = v := by
  unfold mask24
  split <;> omega

lemma goldenAccUpTo_succ (raw : ℕ → ℤ) (row n : ℕ) :
    goldenAccUpTo raw row (n + 1) =
      mask24 (goldenAccUpTo raw row n + to_signed8 (raw (row * 128 + n))) := by
  unfold goldenAccUpTo
  rw [List.range_succ, List.foldl_append]
  rfl

lemma refAccUpTo_succ (raw : ℕ → ℤ) (row n : ℕ) :
    refAccUpTo raw row (n + 1) =
      refAccUpTo raw row n + to_signed8 (raw (row * 128 + n)) := by
  unfold refAccUpTo
  rw [List.range_succ, List.foldl_append]
  rfl

lemma goldenAccUpTo_raw127 (row : ℕ) : ∀ n, n ≤ 128 →
    goldenAccUpTo raw127 row n = 127 * n := by
  intro n
  induction n with
  | zero => intro _; rfl
  | succ m ih =>
    intro hm
    rw [goldenAccUpTo_succ, ih (by omega)]
    have : to_signed8 (raw127 (row * 128 + m)) = 127 := rfl
    rw [this, mask24_eq_self] <;> push_cast <;> omega

lemma refAccUpTo_raw127 (row : ℕ) : ∀ n, refAccUpTo raw127 row n = 127 * n := by
  intro n
  induction n with
  | zero => rfl
  | succ m ih =>
    rw [refAccUpTo_succ, ih]
    have : to_signed8 (raw127 (row * 128 + m)) = 127 := rfl
    rw [this]; push_cast; ring

/-- C5: for the all-127 128×128 matrix against the all-ones input vector,
every row's wrapping accumulator agrees with the full-precision one at
every partial addition (no 24-bit wrap), the pre-shift accumulator equals
16256, the arithmetic shift right by 7 gives 127, and the clamped int8
output of every row is 127. -/
theorem matvec_all127_saturating_vector (row : ℕ) :
    (∀ n, n ≤ 128 → goldenAccUpTo raw127 row n = refAccUpTo raw127 row n ∧
      goldenAccUpTo raw127 row n = 127 * n) ∧
    goldenAccUpTo raw127 row 128 = 16256 ∧
    goldenAccUpTo raw127 row 128 / 2 ^ 7 = 127 ∧
    golden_matvec raw127 row = 127 := by
  have hg := goldenAccUpTo_raw127 row
  have hr := refAccUpTo_raw127 row
  refine ⟨fun n hn => ⟨?_, hg n hn⟩, ?_, ?_, ?_⟩
  · rw [hg n hn, hr n]
  · rw [hg 128 (by omega)]; norm_num
  · rw [hg 128 (by omega)]; norm_num
  · unfold golden_matvec
    rw [hg 128 (by omega)]
    norm_num [clamp8]

/-- Witness for C5 at row 0 and partial column count 64. -/
theorem matvec_all127_saturating_vector_witness :
    goldenAccUpTo raw127 0 64 = refAccUpTo raw127 0 64 ∧ golden_matvec raw127 0 = 127 :=
  ⟨((matvec_all127_saturating_vector 0).1 64 (by norm_num)).1,
    (matvec_all127_saturating_vector 0).2.2.2⟩

lemma goldenAccUpTo_eq_refAccUpTo_of_no_overflow (raw : ℕ → ℤ) (row : ℕ)
    (h : ∀ n, n ≤ 128 → -(2 ^ 23) ≤ refAccUpTo raw row n ∧ refAccUpTo raw row n < 2 ^ 23) :
    ∀ n, n ≤ 128 → goldenAccUpTo raw row n = refAccUpTo raw row n := by
  intro n
  induction n with
  | zero => intro _; rfl
  | succ m ih =>
    intro hm
    rw [goldenAccUpTo_succ, refAccUpTo_succ, ih (by omega)]
    rw [← refAccUpTo_succ]
    exact mask24_eq_self (h (m + 1) hm).1 (h (m + 1) hm).2

/-- C10: whenever every intermediate prefix sum of a row's accumulation
stays in the signed 24-bit range, the 24-bit-wrapping golden matvec and
the full-precision reference matvec produce the same output for that
row. -/
theorem golden_matvec_eq_ref_of_no_overflow (raw : ℕ → ℤ) (row : ℕ)
    (h : ∀ n, n ≤ 128 → -(2 ^ 23) ≤ refAccUpTo raw row n ∧ refAccUpTo raw row n < 2 ^ 23) :
    golden_matvec raw row = ref_int8_matvec raw row := by
  unfold golden_matvec ref_int8_matvec
  rw [goldenAccUpTo_eq_refAccUpTo_of_no_overflow raw row h 128 (by omega)]

set_option maxRecDepth 100000 in
/-- Witness for C10 on the all-zero weight memory at row 0. -/
theorem golden_matvec_eq_ref_of_no_overflow_witness :
    golden_matvec (fun _ => 0) 0 = ref_int8_matvec (fun _ => 0) 0 :=
  golden_matvec_eq_ref_of_no_overflow (fun _ => 0) 0 (by decide)

/-- C6: in the A=24, S=16 requantization configuration, a zero
accumulator yields output byte `0x00` for every scale and every shift;
and the maximum-magnitude accumulator `2^23 - 1` with scale 32767 and
shift 0 clamps to 127. -/
theorem requant_fixed_points :
    (∀ (scale : ℤ) (shift : ℕ), golden_requant 0 scale shift 24 16 = 0) ∧
    golden_requant 8388607 32767 0 24 16 = 127 := by
  constructor
  · intro scale shift
    simp [golden_requant]
  · decide

/-- C8: for every pair of bytes, the embedding combiner output byte,
read as a signed int8, equals `floor((token + position) / 2)` over the
signed values, and that value always lies in `[-128, 127]`. -/
theorem embedding_combiner_formula (t p : ℤ)
    (ht0 : 0 ≤ t) (ht1 : t < 256) (hp0 : 0 ≤ p) (hp1 : p < 256) :
    to_signed8 (golden_byte t p) = (to_signed8 t + to_signed8 p) / 2 ∧
    -128 ≤ (to_signed8 t + to_signed8 p) / 2 ∧
    (to_signed8 t + to_signed8 p) / 2 ≤ 127 := by
  unfold golden_byte to_signed8
  dsimp only
  split_ifs <;> omega

/-- Witness for C8 at token byte 3 and position byte 255. -/
theorem embedding_combiner_formula_witness :
    to_signed8 (golden_byte 3 255) = (to_signed8 3 + to_signed8 255) / 2 ∧
    -128 ≤ (to_signed8 3 + to_signed8 255) / 2 ∧
    (to_signed8 3 + to_signed8 255) / 2 ≤ 127 :=
  embedding_combiner_formula 3 255 (by norm_num) (by norm_num) (by norm_num) (by norm_num)

/-! ### Archive codec lemmas -/

lemma readU32_u32le_append (n : ℕ) (h : n < 2 ^ 32) (rest : List ℕ) :
    readU32 (u32le n ++ rest) = some (n, rest) := by
  simp only [u32le, List.cons_append, List.nil_append, readU32]
  have : n % 256 + 256 * (n / 256 % 256) + 65536 * (n / 65536 % 256) +
      16777216 * (n / 16777216 % 256) = n := by omega
  rw [this]

lemma readU32s_flatMap (shape : List ℕ) (h : ∀ d ∈ shape, d < 2 ^ 32) (rest : List ℕ) :
    readU32s shape.length (shape.flatMap u32le ++ rest) = some (shape, rest) := by
  induction shape with
  | nil => rfl
  | cons d tl ih =>
    simp only [List.flatMap_cons, List.length_cons, List.append_assoc, readU32s]
    rw [readU32_u32le_append d (h d (List.mem_cons_self _ _)) _]
    simp only [Option.pure_def, Option.bind_eq_bind, Option.some_bind]
    rw [ih (fun x hx => h x (List.mem_cons_of_mem d hx))]
    rfl

lemma name_all_ascii {name : List ℕ} (h : ∀ b ∈ name, b < 128) :
    name.all (fun b => b < 128) = true := by
  rw [List.all_eq_true]
  intro x hx
  exact decide_eq_true (h x hx)

lemma parseTensor_serialize (t : Tensor) (h : validTensor t) (rest : List ℕ) :
    parseTensor (serializeTensor t ++ rest) = some (t, rest) := by
  obtain ⟨h1, h2, h3, h4, h5, h6, h7⟩ := h
  unfold serializeTensor parseTensor
  simp only [List.append_assoc]
  rw [readU32_u32le_append t.name.length h1 _]
  simp only [Option.pure_def, Option.bind_eq_bind, Option.some_bind]
  rw [List.take_append_of_le_length le_rfl, List.take_of_length_le le_rfl,
    List.drop_append_of_le_length le_rfl, List.drop_of_length_le le_rfl, List.nil_append,
    name_all_ascii h2, if_pos rfl,
    readU32_u32le_append t.shape.length h3 _]
  simp only [Option.pure_def, Option.bind_eq_bind, Option.some_bind]
  rw [readU32s_flatMap t.shape (fun d hd => (h4 d hd).2) _]
  simp only [Option.pure_def, Option.bind_eq_bind, Option.some_bind]
  rw [readU32_u32le_append t.scale_bits h5 _]
  simp only [Option.pure_def, Option.bind_eq_bind, Option.some_bind]
  rw [← h6, List.take_append_of_le_length le_rfl, List.take_of_length_le le_rfl,
    List.drop_append_of_le_length le_rfl, List.drop_of_length_le le_rfl, List.nil_append,
    if_pos rfl]

lemma parseTensors_flatMap (ts : List Tensor) (h : ∀ t ∈ ts, validTensor t) (rest : List ℕ) :
    parseTensors ts.length (ts.flatMap serializeTensor ++ rest) = some (ts, rest) := by
  induction ts with
  | nil => rfl
  | cons t tl ih =>
    simp only [List.flatMap_cons, List.length_cons, List.append_assoc, parseTensors]
    rw [parseTensor_serialize t (h t (List.mem_cons_self _ _)) _]
    simp only [Option.pure_def, Option.bind_eq_bind, Option.some_bind]
    rw [ih (fun x hx => h x (List.mem_cons_of_mem t hx))]
    rfl

lemma parse_bin_serialize_append (ts : List Tensor) (h : validTensors ts) (extra : List ℕ) :
    parse_bin (export_weights_int8 ts ++ extra) = some ts := by
  obtain ⟨hc, ht⟩ := h
  unfold export_weights_int8 parse_bin
  simp only [List.append_assoc]
  rw [List.take_append_of_le_length (by simp [magicBytes]), List.take_of_length_le (by simp [magicBytes]),
    if_pos rfl,
    List.drop_append_of_le_length (by simp [magicBytes]), List.drop_of_length_le (by simp [magicBytes]),
    List.nil_append,
    readU32_u32le_append ts.length hc _]
  simp only [Option.pure_def, Option.bind_eq_bind, Option.some_bind]
  rw [parseTensors_flatMap ts ht extra]
  rfl

lemma length_u32le (n : ℕ) : (u32le n).length = 4 := rfl

lemma take_append_ge {l r : List ℕ} {n : ℕ} (h : l.length ≤ n) :
    (l ++ r).take n = l ++ r.take (n - l.length) := by
  rw [List.take_append_eq_append_take, List.take_of_length_le h]

lemma length_flatMap_u32le (l : List ℕ) : (l.flatMap u32le).length = 4 * l.length := by
  induction l with
  | nil => rfl
  | cons d tl ih =>
    simp only [List.flatMap_cons, List.length_append, List.length_cons, length_u32le, ih]
    omega

lemma length_serializeTensor (t : Tensor) :
    (serializeTensor t).length =
      4 + t.name.length + 4 + 4 * t.shape.length + 4 + t.data.length := by
  simp only [serializeTensor, List.length_append, length_u32le, length_flatMap_u32le]

lemma readU32_short {bs : List ℕ} (h : bs.length < 4) : readU32 bs = none := by
  rcases bs with _ | ⟨a, _ | ⟨b, _ | ⟨c, _ | ⟨d, tl⟩⟩⟩⟩
  · rfl
  · rfl
  · rfl
  · rfl
  · simp only [List.length_cons] at h; omega

lemma parseTensor_none_of_readU32_none {bs : List ℕ} (h : readU32 bs = none) :
    parseTensor bs = none := by
  unfold parseTensor
  rw [h]
  rfl

lemma readU32s_truncated (shape : List ℕ) :
    ∀ (R : List ℕ), (∀ d ∈ shape, d < 2 ^ 32) → ∀ m, m < 4 * shape.length →
      readU32s shape.length ((shape.flatMap u32le ++ R).take m) = none := by
  induction shape with
  | nil => intro R _ m hm; simp only [List.length_nil] at hm; omega
  | cons d tl ih =>
    intro R h m hm
    simp only [List.flatMap_cons, List.length_cons, List.append_assoc]
    rcases lt_or_ge m 4 with hc | hc
    · rw [List.take_append_of_le_length (by rw [length_u32le]; omega)]
      simp only [readU32s]
      rw [readU32_short (by rw [List.length_take, length_u32le]; omega)]
      rfl
    · rw [take_append_ge (by rw [length_u32le]; omega)]
      simp only [readU32s, length_u32le]
      rw [readU32_u32le_append d (h d (List.mem_cons_self _ _)) _]
      simp only [Option.pure_def, Option.bind_eq_bind, Option.some_bind]
      rw [ih R (fun x hx => h x (List.mem_cons_of_mem d hx)) (m - 4)
        (by simp only [List.length_cons] at hm; omega)]
      rfl

lemma parseTensor_truncated (t : Tensor) (ht : validTensor t) (n : ℕ)
    (hn : n < (serializeTensor t).length) :
    parseTensor ((serializeTensor t).take n) = none := by
  obtain ⟨h1, h2, h3, h4, h5, h6, h7⟩ := ht
  rw [length_serializeTensor] at hn
  unfold serializeTensor
  simp only [List.append_assoc]
  rcases lt_or_ge n 4 with hc | hc
  · rw [List.take_append_of_le_length (by rw [length_u32le]; omega)]
    exact parseTensor_none_of_readU32_none
      (readU32_short (by rw [List.length_take, length_u32le]; omega))
  · rw [take_append_ge (by rw [length_u32le]; omega)]
    unfold parseTensor
    rw [readU32_u32le_append _ h1 _]
    simp only [Option.pure_def, Option.bind_eq_bind, Option.some_bind, length_u32le]
    rcases le_or_lt (n - 4) t.name.length with hc2 | hc2
    · rw [List.take_append_of_le_length hc2,
        List.take_of_length_le (by rw [List.length_take]; omega),
        List.drop_of_length_le (by rw [List.length_take]; omega)]
      split
      · rw [readU32_short (by simp)]
        rfl
      · rfl
    · rw [take_append_ge (le_of_lt hc2),
        List.take_append_of_le_length le_rfl, List.take_of_length_le le_rfl,
        List.drop_append_of_le_length le_rfl, List.drop_of_length_le le_rfl, List.nil_append,
        name_all_ascii h2, if_pos rfl]
      rcases lt_or_ge (n - 4 - t.name.length) 4 with hc3 | hc3
      · rw [List.take_append_of_le_length (by rw [length_u32le]; omega)]
        rw [readU32_short (by rw [List.length_take, length_u32le]; omega)]
        rfl
      · rw [take_append_ge (by rw [length_u32le]; omega)]
        rw [readU32_u32le_append _ h3 _]
        simp only [Option.pure_def, Option.bind_eq_bind, Option.some_bind, length_u32le]
        rcases lt_or_ge (n - 4 - t.name.length - 4) (4 * t.shape.length) with hc4 | hc4
        · rw [readU32s_truncated t.shape _ (fun d hd => (h4 d hd).2) _ hc4]
          rfl
        · rw [take_append_ge (by rw [length_flatMap_u32le]; omega)]
          rw [readU32s_flatMap t.shape (fun d hd => (h4 d hd).2) _]
          simp only [Option.pure_def, Option.bind_eq_bind, Option.some_bind, length_flatMap_u32le]
          rcases lt_or_ge (n - 4 - t.name.length - 4 - 4 * t.shape.length) 4 with hc5 | hc5
          · rw [List.take_append_of_le_length (by rw [length_u32le]; omega)]
            rw [readU32_short (by rw [List.length_take, length_u32le]; omega)]
            rfl
          · rw [take_append_ge (by rw [length_u32le]; omega)]
            rw [readU32_u32le_append _ h5 _]
            simp only [Option.pure_def, Option.bind_eq_bind, Option.some_bind, length_u32le]
            rw [List.take_take]
            have hm5 : n - 4 - t.name.length - 4 - 4 * t.shape.length - 4 < t.data.length := by
              omega
            rw [min_eq_right (by omega)]
            rw [if_neg]
            rw [List.length_take]
            omega

lemma parseTensors_truncated (ts : List Tensor) :
    ∀ m, (∀ t ∈ ts, validTensor t) → m < (ts.flatMap serializeTensor).length →
      parseTensors ts.length ((ts.flatMap serializeTensor).take m) = none := by
  induction ts with
  | nil => intro m _ hm; simp only [List.flatMap_nil, List.length_nil] at hm; omega
  | cons t tl ih =>
    intro m h hm
    simp only [List.flatMap_cons, List.length_cons]
    rcases lt_or_ge m (serializeTensor t).length with hc | hc
    · rw [List.take_append_of_le_length (le_of_lt hc)]
      simp only [parseTensors]
      rw [parseTensor_truncated t (h t (List.mem_cons_self _ _)) m hc]
      rfl
    · rw [take_append_ge hc]
      simp only [parseTensors]
      rw [parseTensor_serialize t (h t (List.mem_cons_self _ _)) _]
      simp only [Option.pure_def, Option.bind_eq_bind, Option.some_bind]
      rw [ih (m - (serializeTensor t).length) (fun x hx => h x (List.mem_cons_of_mem t hx))
        (by simp only [List.flatMap_cons, List.length_append] at hm; omega)]
      rfl

/-- C1 (amended): for every valid tensor set whose names are pure ASCII,
deserializing the serialized archive yields the same tensors field for
field, and two valid tensor sets serialize to the same bytes exactly
when they are equal (so identical logical content is byte-identical). -/
theorem archive_round_trip (ts ts2 : List Tensor) (h : validTensors ts) (h2 : validTensors ts2) :
    parse_bin (export_weights_int8 ts) = some ts ∧
    (export_weights_int8 ts = export_weights_int8 ts2 ↔ ts = ts2) := by
  have r1 : parse_bin (export_weights_int8 ts) = some ts := by
    have := parse_bin_serialize_append ts h []
    simpa using this
  refine ⟨r1, fun he => ?_, fun he => by rw [he]⟩
  have r2 : parse_bin (export_weights_int8 ts2) = some ts2 := by
    have := parse_bin_serialize_append ts2 h2 []
    simpa using this
  rw [← he, r1] at r2
  exact Option.some_injective _ r2

/-- Witness for C1 on a one-tensor archive. -/
theorem archive_round_trip_witness :
    parse_bin (export_weights_int8 [⟨[97], [2], 7, [4, 5]⟩]) = some [⟨[97], [2], 7, [4, 5]⟩] ∧
    (export_weights_int8 [⟨[97], [2], 7, [4, 5]⟩] = export_weights_int8 [] ↔
      [(⟨[97], [2], 7, [4, 5]⟩ : Tensor)] = []) :=
  archive_round_trip [⟨[97], [2], 7, [4, 5]⟩] [] (by decide) (by decide)

/-- C1 counterexample: a tensor whose name is the UTF-8 encoding of a
non-ASCII character (positive dims, data length = product of shape) is
serialized with those name bytes, but `parse_bin` decodes names as ASCII
and fails, so the round trip does not return the tensor set. -/
theorem archive_round_trip_cex :
    parse_bin (export_weights_int8 [cexTensor]) = none ∧
    parse_bin (export_weights_int8 [cexTensor]) ≠ some [cexTensor] ∧
    cexTensor.data.length = cexTensor.shape.prod ∧ (∀ d ∈ cexTensor.shape, 0 < d) := by
  refine ⟨by decide, by decide, by decide, by decide⟩

/-- C7 (amended): loading fails whenever the magic differs from
`TFPGA001`, and whenever the stream is truncated (a declared size then
exceeds the remaining input); but bytes trailing after the declared
count of records are ignored, so a successful load does not imply the
stream was fully consumed. -/
theorem parse_bin_exact_stream :
    (∀ bs : List ℕ, bs.take 8 ≠ magicBytes → parse_bin bs = none) ∧
    (∀ (ts : List Tensor) (n : ℕ), validTensors ts → n < (export_weights_int8 ts).length →
      parse_bin ((export_weights_int8 ts).take n) = none) ∧
    (∀ (ts : List Tensor) (extra : List ℕ), validTensors ts →
      parse_bin (export_weights_int8 ts ++ extra) = some ts) := by
  refine ⟨fun bs h => ?_, fun ts n h hn => ?_, fun ts extra h => parse_bin_serialize_append ts h extra⟩
  · unfold parse_bin
    rw [if_neg h]
  · obtain ⟨hc, ht⟩ := h
    have hlen : (export_weights_int8 ts).length =
        8 + 4 + (ts.flatMap serializeTensor).length := by
      simp only [export_weights_int8, List.length_append, length_u32le, magicBytes]
      simp
    rw [hlen] at hn
    unfold export_weights_int8
    simp only [List.append_assoc]
    rcases lt_or_ge n 8 with hc1 | hc1
    · rw [List.take_append_of_le_length (by simp [magicBytes]; omega)]
      unfold parse_bin
      rw [if_neg]
      rw [List.take_of_length_le (by rw [List.length_take]; simp [magicBytes])]
      intro hfalse
      have := congrArg List.length hfalse
      rw [List.length_take] at this
      simp [magicBytes] at this
      omega
    · rw [take_append_ge (by simp [magicBytes]; omega)]
      unfold parse_bin
      rw [List.take_append_of_le_length (by simp [magicBytes]),
        List.take_of_length_le (by simp [magicBytes]), if_pos rfl,
        List.drop_append_of_le_length (by simp [magicBytes]),
        List.drop_of_length_le (by simp [magicBytes]), List.nil_append]
      have hm8 : (magicBytes).length = 8 := rfl
      rw [hm8]
      rcases lt_or_ge (n - 8) 4 with hc2 | hc2
      · rw [List.take_append_of_le_length (by rw [length_u32le]; omega)]
        rw [readU32_short (by rw [List.length_take, length_u32le]; omega)]
        rfl
      · rw [take_append_ge (by rw [length_u32le]; omega)]
        rw [readU32_u32le_append _ hc _]
        simp only [Option.pure_def, Option.bind_eq_bind, Option.some_bind, length_u32le]
        rw [parseTensors_truncated ts (n - 8 - 4) ht (by omega)]
        rfl

/-- Witness for C7: a short junk stream is rejected, a truncated valid
archive is rejected, and a valid archive with one trailing byte loads. -/
theorem parse_bin_exact_stream_witness :
    parse_bin [0] = none ∧
    parse_bin ((export_weights_int8 [⟨[97], [1], 7, [4]⟩]).take 20) = none ∧
    parse_bin (export_weights_int8 [] ++ [7]) = some [] :=
  ⟨parse_bin_exact_stream.1 [0] (by decide),
    parse_bin_exact_stream.2.1 [⟨[97], [1], 7, [4]⟩] 20 (by decide) (by decide),
    parse_bin_exact_stream.2.2 [] [7] (by decide)⟩

/-- C7 counterexample: the claim says trailing bytes make loading fail,
but a serialized empty archive followed by one junk byte loads
successfully. -/
theorem parse_bin_trailing_cex :
    parse_bin (export_weights_int8 [] ++ [7]) = some [] ∧
    (export_weights_int8 [] ++ [7]).length ≠ (export_weights_int8 []).length := by
  refine ⟨by decide, by decide⟩

/-- C2: on a constant input vector every LayerNorm output channel equals
the clamped beta value exactly, for every constant in the int8 range,
every gamma vector, every beta byte vector, and every inverse-sqrt LUT:
the zero-variance path multiplies the `InvSqrt(0) = 0xFFFF` value by the
all-zero centered inputs, so no division or undefined intermediate
occurs. -/
theorem layernorm_constant_input (c : ℤ) (hc1 : -128 ≤ c) (hc2 : c ≤ 127)
    (gamma beta : Fin 128 → ℤ) (hb : ∀ j, 0 ≤ beta j ∧ beta j < 256)
    (lut : ℕ → ℤ) (i : Fin 128) :
    golden_layernorm (fun _ => c) gamma beta lut i =
      max (-128) (min 127 (to_signed8 (beta i))) := by
  unfold golden_layernorm
  dsimp only
  have hsum : (∑ _j : Fin 128, c) = 128 * c := by
    rw [Finset.sum_const, Finset.card_univ, Fintype.card_fin, nsmul_eq_mul]
    norm_num
  rw [hsum]
  have hmean : (128 : ℤ) * c / 2 ^ 7 = c := by
    norm_num [Int.mul_ediv_cancel_left]
  rw [hmean]
  simp only [sub_self, zero_mul, mul_zero]
  norm_num
  have hwrap : (if 131072 ≤ to_signed8 (beta i) % 262144
      then to_signed8 (beta i) % 262144 - 262144 else to_signed8 (beta i) % 262144) =
      to_signed8 (beta i) := by
    have := hb i
    unfold to_signed8
    split_ifs <;> omega
  rw [hwrap]

/-- Witness for C2 at constant 42, all-zero gamma and beta, the zero
LUT, channel 0. -/
theorem layernorm_constant_input_witness :
    golden_layernorm (fun _ => 42) (fun _ => 0) (fun _ => 7) (fun _ => 0) 0 =
      max (-128) (min 127 (to_signed8 7)) :=
  layernorm_constant_input 42 (by norm_num) (by norm_num) (fun _ => 0) (fun _ => 7)
    (fun _ => ⟨by norm_num, by norm_num⟩) (fun _ => 0) 0

/-- C9: for every layer and every positive activation scale, the
generated 256-entry GELU table maps input byte 0 to output byte 0,
because GELU(0) = 0 exactly. -/
theorem gelu_lut_zero_entry (act_scales : ℕ → ℝ) (layer : ℕ)
    (hpos : 0 < act_scales layer) :
    gelu_lut_combined act_scales (layer * 256) = 0 := by
  unfold gelu_lut_combined build_gelu_lut gelu
  have h1 : layer * 256 / 256 = layer := by omega
  have h2 : layer * 256 % 256 = 0 := by omega
  rw [h1, h2]
  norm_num

/-- Witness for C9 with unit scales at layer 0. -/
theorem gelu_lut_zero_entry_witness : gelu_lut_combined (fun _ => 1) 0 = 0 :=
  gelu_lut_zero_entry (fun _ => 1) 0 (by norm_num)

/-! ### Softmax lemmas -/

lemma le_foldl_max (l : List ℤ) : ∀ a : ℤ, a ≤ l.foldl max a ∧ ∀ z ∈ l, z ≤ l.foldl max a := by
  induction l with
  | nil => intro a; simp
  | cons b tl ih =>
    intro a
    constructor
    · rw [List.foldl_cons]
      exact le_trans (le_max_left a b) (ih (max a b)).1
    · intro z hz
      rw [List.foldl_cons]
      rcases List.mem_cons.mp hz with h | h
      · subst h
        exact le_trans (le_max_right a z) (ih (max a z)).1
      · exact (ih (max a b)).2 z h

lemma le_maxVal {l : List ℤ} {z : ℤ} (hz : z ∈ l) : z ≤ maxVal l := by
  cases l with
  | nil => cases hz
  | cons x xs =>
    rcases List.mem_cons.mp hz with h | h
    · exact h ▸ (le_foldl_max xs x).1
    · exact (le_foldl_max xs x).2 z h

lemma softmax_ln_offset_bounds (inputs : List ℤ) (lut0 lut1 : ℤ → ℤ) :
    0 ≤ softmax_ln_offset inputs lut0 lut1 ∧ softmax_ln_offset inputs lut0 lut1 ≤ 2048 := by
  unfold softmax_ln_offset
  dsimp only
  split_ifs <;> omega

/-- C4 (amended): for every non-empty vector of logits and every
bipartite LUT pair, the output at the element equal to the maximum
equals `BipartiteExp(ln_offset)`; and whenever the LUT pair makes the
bipartite exponential non-increasing on nonnegative inputs (as the
generated exp tables are), that output is also the largest in the
vector. -/
theorem softmax_max_element (inputs : List ℤ) (lut0 lut1 : ℤ → ℤ)
    (hne : inputs ≠ [])
    (x : ℤ) (hx : x ∈ inputs) (hmax : x = maxVal inputs) :
    softmax_norm_out (maxVal inputs) (softmax_ln_offset inputs lut0 lut1) lut0 lut1 x =
      bipartite_exp lut0 lut1 (softmax_ln_offset inputs lut0 lut1) ∧
    ((∀ a b : ℤ, 0 ≤ a → a ≤ b →
        bipartite_exp lut0 lut1 b ≤ bipartite_exp lut0 lut1 a) →
      ∀ y ∈ golden_softmax inputs lut0 lut1,
        y ≤ softmax_norm_out (maxVal inputs) (softmax_ln_offset inputs lut0 lut1) lut0 lut1 x) := by
  obtain ⟨hlo0, hlo1⟩ := softmax_ln_offset_bounds inputs lut0 lut1
  have hout : softmax_norm_out (maxVal inputs) (softmax_ln_offset inputs lut0 lut1) lut0 lut1 x =
      bipartite_exp lut0 lut1 (softmax_ln_offset inputs lut0 lut1) := by
    unfold softmax_norm_out
    rw [← hmax, sub_self]
    dsimp only
    norm_num
    split_ifs with h
    · rw [(by omega : softmax_ln_offset inputs lut0 lut1 = 2048)]
    · rfl
  refine ⟨hout, fun hmono y hy => ?_⟩
  rw [hout]
  obtain ⟨z, hz, hzy⟩ := List.mem_map.mp hy
  rw [← hzy]
  unfold softmax_norm_out
  dsimp only
  have hdraw : 0 ≤ maxVal inputs - z := by
    have := le_maxVal hz
    omega
  split_ifs with h1 h2 h2
  · exact hmono _ _ hlo0 hlo1
  · exfalso; omega
  · exact hmono _ _ hlo0 hlo1
  · refine hmono _ _ hlo0 ?_
    omega

/-- Witness for C4 on the one-element vector `[5]` with all-zero LUTs
(whose bipartite exponential is constantly zero, hence non-increasing). -/
theorem softmax_max_element_witness :
    softmax_norm_out (maxVal [5]) (softmax_ln_offset [5] (fun _ => 0) (fun _ => 0))
        (fun _ => 0) (fun _ => 0) 5 =
      bipartite_exp (fun _ => 0) (fun _ => 0) (softmax_ln_offset [5] (fun _ => 0) (fun _ => 0)) ∧
    ∀ y ∈ golden_softmax [5] (fun _ => 0) (fun _ => 0),
      y ≤ softmax_norm_out (maxVal [5]) (softmax_ln_offset [5] (fun _ => 0) (fun _ => 0))
        (fun _ => 0) (fun _ => 0) 5 :=
  ⟨(softmax_max_element [5] (fun _ => 0) (fun _ => 0) (by decide) 5 (by decide) (by decide)).1,
    (softmax_max_element [5] (fun _ => 0) (fun _ => 0) (by decide) 5 (by decide) (by decide)).2
      (fun a b ha hab => by unfold bipartite_exp; split_ifs <;> norm_num)⟩

/-- C4 counterexample: with the logits `[0, -1]` and a concrete LUT pair
the pipeline yields the outputs `[16334, 16434]`: the element equal to
the maximum (the first) does not produce the largest output. -/
theorem softmax_max_element_cex :
    golden_softmax [0, -1] cexLut0 cexLut1 = [16334, 16434] ∧
    maxVal [0, -1] = 0 ∧ (16334 : ℤ) < 16434 := by
  refine ⟨by decide, by decide, by decide⟩

/-! ### Inverse-square-root monotonicity (C3)

The generator formulas are antitone in the mantissa within each LUT
bank, and the two bank-boundary inequalities
`lut[0][255] >= lut[1][0]` and `lut[1][255] >= lut[0][0] >> 1`
carry the result across leading-one-position changes. -/

lemma round_le_round_of_le {x y : ℝ} (h : x ≤ y) : round x ≤ round y := by
  rw [round_eq, round_eq]
  exact Int.floor_le_floor (by linarith)

lemma lodK_succ (dw d : ℕ) : lodK (dw + 1) d = if d.testBit dw then dw else lodK dw d := by
  unfold lodK
  rw [List.range_succ, List.foldl_append, List.foldl_cons, List.foldl_nil]

lemma lodK_bounds (dw d : ℕ) (h1 : 0 < d) (h2 : d < 2 ^ dw) :
    2 ^ lodK dw d ≤ d ∧ d < 2 ^ (lodK dw d + 1) := by
  induction dw with
  | zero =>
    rw [pow_zero] at h2
    omega
  | succ n ih =>
    rw [lodK_succ]
    by_cases hb : d.testBit n = true
    · rw [if_pos hb]
      exact ⟨Nat.testBit_implies_ge hb, h2⟩
    · rw [if_neg hb]
      apply ih
      by_contra hlt
      push_neg at hlt
      apply hb
      rw [Nat.testBit_to_div_mod]
      have hdiv : d / 2 ^ n = 1 := by
        apply Nat.div_eq_of_lt_le (by omega)
        rw [pow_succ] at h2
        omega
      rw [hdiv]
      rfl

lemma lodK_eq_of_bounds (dw k d : ℕ) (h1 : 0 < d) (h2 : d < 2 ^ dw)
    (hlb : 2 ^ k ≤ d) (hub : d < 2 ^ (k + 1)) : lodK dw d = k := by
  obtain ⟨l1, l2⟩ := lodK_bounds dw d h1 h2
  rcases lt_trichotomy (lodK dw d) k with hc | hc | hc
  · exfalso
    have : 2 ^ (lodK dw d + 1) ≤ 2 ^ k := Nat.pow_le_pow_right (by norm_num) (by omega)
    omega
  · exact hc
  · exfalso
    have : 2 ^ (k + 1) ≤ 2 ^ lodK dw d := Nat.pow_le_pow_right (by norm_num) (by omega)
    omega

lemma lodK14_le (d : ℕ) (h1 : 0 < d) (h2 : d < 2 ^ 14) : lodK 14 d ≤ 13 := by
  obtain ⟨l1, l2⟩ := lodK_bounds 14 d h1 h2
  by_contra hc
  push_neg at hc
  have : 2 ^ 14 ≤ 2 ^ lodK 14 d := Nat.pow_le_pow_right (by norm_num) (by omega)
  omega

lemma mantissa_eq (d k : ℕ) (hk : k ≤ 13) (hlb : 2 ^ k ≤ d) (hub : d < 2 ^ (k + 1)) :
    d * 2 ^ (14 - 1 - k) % 2 ^ 14 / 2 ^ (14 - 9) % 256 = d * 2 ^ 8 / 2 ^ k - 256 := by
  have h14 : 14 - 1 - k = 13 - k := by omega
  have h5 : (14 : ℕ) - 9 = 5 := rfl
  rw [h14, h5]
  have hnw : d * 2 ^ (13 - k) < 2 ^ 14 := by
    calc d * 2 ^ (13 - k) < 2 ^ (k + 1) * 2 ^ (13 - k) :=
          (Nat.mul_lt_mul_right (Nat.pos_pow_of_pos _ (by norm_num))).mpr hub
    _ = 2 ^ 14 := by rw [← pow_add]; congr 1; omega
  rw [Nat.mod_eq_of_lt hnw]
  have hdiv : d * 2 ^ (13 - k) / 2 ^ 5 = d * 2 ^ 8 / 2 ^ k := by
    rcases le_or_lt k 8 with hc | hc
    · rw [show (13 - k) = (8 - k) + 5 by omega, pow_add, ← mul_assoc,
        Nat.mul_div_cancel _ (Nat.pos_pow_of_pos _ (by norm_num)),
        show (2 : ℕ) ^ 8 = 2 ^ (8 - k) * 2 ^ k by rw [← pow_add]; congr 1; omega,
        ← mul_assoc, Nat.mul_div_cancel _ (Nat.pos_pow_of_pos _ (by norm_num))]
    · rw [show (2 : ℕ) ^ 5 = 2 ^ (13 - k) * 2 ^ (k - 8) by rw [← pow_add]; congr 1; omega,
        ← Nat.div_div_eq_div_mul, Nat.mul_div_cancel _ (Nat.pos_pow_of_pos _ (by norm_num)),
        show (2 : ℕ) ^ k = 2 ^ 8 * 2 ^ (k - 8) by rw [← pow_add]; congr 1; omega,
        ← Nat.div_div_eq_div_mul, Nat.mul_div_cancel _ (Nat.pos_pow_of_pos _ (by norm_num))]
  rw [hdiv]
  have hp : 0 < 2 ^ k := Nat.pos_pow_of_pos _ (by norm_num)
  have hlo : 256 ≤ d * 2 ^ 8 / 2 ^ k := by
    rw [Nat.le_div_iff_mul_le hp]
    calc 256 * 2 ^ k = 2 ^ k * 2 ^ 8 := by ring
    _ ≤ d * 2 ^ 8 := Nat.mul_le_mul_right _ hlb
  have hhi : d * 2 ^ 8 / 2 ^ k < 512 := by
    rw [Nat.div_lt_iff_lt_mul hp]
    calc d * 2 ^ 8 < 2 ^ (k + 1) * 2 ^ 8 := (Nat.mul_lt_mul_right (by norm_num)).mpr hub
    _ = 512 * 2 ^ k := by rw [pow_succ]; ring
  omega

/-- Closed form of the LOD-LUT-Shift kernel at width 14 over the
generated LUT, with the mantissa written as `d * 256 / 2^k - 256`. -/
lemma inv_sqrt_closed (d : ℕ) (h1 : 0 < d) (h3 : d < 2 ^ 14) :
    golden_inv_sqrt 14 generate_lut d =
      generate_lut (lodK 14 d % 2 * 256 + (d * 2 ^ 8 / 2 ^ lodK 14 d - 256)) /
        2 ^ (lodK 14 d / 2) := by
  obtain ⟨hlb, hub⟩ := lodK_bounds 14 d h1 h3
  unfold golden_inv_sqrt
  rw [if_neg (by omega)]
  dsimp only
  rw [mantissa_eq d (lodK 14 d) (lodK14_le d h1 h3) hlb hub]

lemma generate_lut_addr (b m : ℕ) (hb : b < 2) (hm : m < 256) :
    generate_lut (b * 256 + m) =
      min (round ((if b = 0 then 1 / Real.sqrt (1 + (m : ℝ) / 256)
        else 1 / Real.sqrt (2 * (1 + (m : ℝ) / 256))) * 32768)) 65535 := by
  unfold generate_lut
  have h1 : (b * 256 + m) / 256 % 2 = b := by omega
  have h2 : (b * 256 + m) % 256 = m := by omega
  rw [h1, h2]

lemma generate_lut_antitone (b : ℕ) (hb : b < 2) {m m2 : ℕ} (hm : m ≤ m2) (hm2 : m2 < 256) :
    generate_lut (b * 256 + m2) ≤ generate_lut (b * 256 + m) := by
  rw [generate_lut_addr b m hb (by omega), generate_lut_addr b m2 hb hm2]
  refine min_le_min ?_ le_rfl
  apply round_le_round_of_le
  apply mul_le_mul_of_nonneg_right _ (by norm_num)
  have harg : (1 : ℝ) + (m : ℝ) / 256 ≤ 1 + (m2 : ℝ) / 256 := by
    have : (m : ℝ) ≤ (m2 : ℝ) := by exact_mod_cast hm
    linarith
  have hpos : (0 : ℝ) < Real.sqrt (1 + (m : ℝ) / 256) := by
    apply Real.sqrt_pos.mpr
    positivity
  have hpos2 : (0 : ℝ) < Real.sqrt (2 * (1 + (m : ℝ) / 256)) := by
    apply Real.sqrt_pos.mpr
    positivity
  rcases (by omega : b = 0 ∨ b = 1) with h | h
  · subst h
    simp only [if_pos rfl]
    exact one_div_le_one_div_of_le hpos (Real.sqrt_le_sqrt harg)
  · subst h
    simp only [if_neg (by norm_num : (1 : ℕ) ≠ 0)]
    exact one_div_le_one_div_of_le hpos2 (Real.sqrt_le_sqrt (by linarith))

lemma generate_lut_zero : generate_lut 0 = 32768 := by
  have h0 : (0 : ℕ) = 0 * 256 + 0 := by norm_num
  rw [h0, generate_lut_addr 0 0 (by norm_num) (by norm_num)]
  norm_num [Real.sqrt_one]

lemma generate_lut_even255_ge_odd0 : generate_lut (1 * 256 + 0) ≤ generate_lut (0 * 256 + 255) := by
  rw [generate_lut_addr 1 0 (by norm_num) (by norm_num),
    generate_lut_addr 0 255 (by norm_num) (by norm_num)]
  refine min_le_min ?_ le_rfl
  apply round_le_round_of_le
  apply mul_le_mul_of_nonneg_right _ (by norm_num)
  simp only [if_neg (by norm_num : (1 : ℕ) ≠ 0), if_pos rfl]
  apply one_div_le_one_div_of_le
  · apply Real.sqrt_pos.mpr
    positivity
  · apply Real.sqrt_le_sqrt
    norm_num

lemma generate_lut_odd255_ge : 16384 ≤ generate_lut (1 * 256 + 255) := by
  rw [generate_lut_addr 1 255 (by norm_num) (by norm_num)]
  refine le_min ?_ (by norm_num)
  have hs : Real.sqrt (2 * (1 + (255 : ℝ) / 256)) ≤ 2 := by
    calc Real.sqrt (2 * (1 + (255 : ℝ) / 256)) ≤ Real.sqrt 4 := Real.sqrt_le_sqrt (by norm_num)
    _ = 2 := by rw [show (4 : ℝ) = 2 ^ 2 by norm_num, Real.sqrt_sq (by norm_num)]
  have hpos : (0 : ℝ) < Real.sqrt (2 * (1 + (255 : ℝ) / 256)) := by
    apply Real.sqrt_pos.mpr
    norm_num
  have harg : (16384 : ℝ) ≤ 1 / Real.sqrt (2 * (1 + (255 : ℝ) / 256)) * 32768 := by
    rw [div_mul_eq_mul_div, one_mul, le_div_iff hpos]
    nlinarith
  calc (16384 : ℤ) = round ((16384 : ℤ) : ℝ) := (round_intCast _).symm
  _ ≤ round (1 / Real.sqrt (2 * (1 + (255 : ℝ) / 256)) * 32768) := by
      apply round_le_round_of_le
      norm_num at harg ⊢
      exact harg
  _ = round ((if (1 : ℕ) = 0 then 1 / Real.sqrt (1 + (255 : ℝ) / 256)
      else 1 / Real.sqrt (2 * (1 + (255 : ℝ) / 256))) * 32768) := by
      rw [if_neg (by norm_num : (1 : ℕ) ≠ 0)]

/-- One step of C3: the result at `d + 1` is at most the result at `d`. -/
lemma inv_sqrt_step (d : ℕ) (h1 : 0 < d) (h2 : d + 1 < 2 ^ 14) :
    golden_inv_sqrt 14 generate_lut (d + 1) ≤ golden_inv_sqrt 14 generate_lut d := by
  obtain ⟨hlb, hub⟩ := lodK_bounds 14 d h1 (by omega)
  have hk13 : lodK 14 d ≤ 13 := lodK14_le d h1 (by omega)
  have hp : (0 : ℕ) < 2 ^ lodK 14 d := Nat.pos_pow_of_pos _ (by norm_num)
  have hmlo : 256 ≤ d * 2 ^ 8 / 2 ^ lodK 14 d := by
    rw [Nat.le_div_iff_mul_le hp]
    calc 256 * 2 ^ lodK 14 d = 2 ^ lodK 14 d * 2 ^ 8 := by ring
    _ ≤ d * 2 ^ 8 := Nat.mul_le_mul_right _ hlb
  have hmhi : d * 2 ^ 8 / 2 ^ lodK 14 d < 512 := by
    rw [Nat.div_lt_iff_lt_mul hp]
    calc d * 2 ^ 8 < 2 ^ (lodK 14 d + 1) * 2 ^ 8 := (Nat.mul_lt_mul_right (by norm_num)).mpr hub
    _ = 512 * 2 ^ lodK 14 d := by rw [pow_succ]; ring
  rw [inv_sqrt_closed d h1 (by omega), inv_sqrt_closed (d + 1) (by omega) h2]
  rcases lt_or_ge (d + 1) (2 ^ (lodK 14 d + 1)) with hsame | hnext
  · -- same leading-one position
    have hev : lodK 14 (d + 1) = lodK 14 d :=
      lodK_eq_of_bounds 14 (lodK 14 d) (d + 1) (by omega) h2 (by omega) hsame
    rw [hev]
    apply Int.ediv_le_ediv (pow_pos (by norm_num) _)
    apply generate_lut_antitone _ (by omega)
    · exact Nat.sub_le_sub_right (Nat.div_le_div_right (Nat.mul_le_mul_right _ (by omega))) 256
    · have : (d + 1) * 2 ^ 8 / 2 ^ lodK 14 d < 512 := by
        rw [Nat.div_lt_iff_lt_mul hp]
        calc (d + 1) * 2 ^ 8 < 2 ^ (lodK 14 d + 1) * 2 ^ 8 :=
              (Nat.mul_lt_mul_right (by norm_num)).mpr hsame
        _ = 512 * 2 ^ lodK 14 d := by rw [pow_succ]; ring
      omega
  · -- the leading-one position advances: d + 1 = 2^(k+1)
    have heq : d + 1 = 2 ^ (lodK 14 d + 1) := by omega
    have hev : lodK 14 (d + 1) = lodK 14 d + 1 := by
      apply lodK_eq_of_bounds 14 (lodK 14 d + 1) (d + 1) (by omega) h2 (by omega)
      rw [heq, pow_succ]
      have : 0 < 2 ^ (lodK 14 d + 1) := Nat.pos_pow_of_pos _ (by norm_num)
      omega
    have hm1 : (d + 1) * 2 ^ 8 / 2 ^ (lodK 14 d + 1) - 256 = 0 := by
      rw [heq, Nat.mul_div_cancel_left _ (Nat.pos_pow_of_pos _ (by norm_num))]
      norm_num
    rw [hev, hm1]
    -- first move the mantissa of d up to 255 inside its bank
    have hstep1 : generate_lut (lodK 14 d % 2 * 256 + 255) ≤
        generate_lut (lodK 14 d % 2 * 256 + (d * 2 ^ 8 / 2 ^ lodK 14 d - 256)) :=
      generate_lut_antitone _ (by omega) (by omega) (by omega)
    rcases Nat.even_or_odd (lodK 14 d) with he | ho
    · -- even k: same shift on both sides, lut[1][0] <= lut[0][255]
      have hpar : lodK 14 d % 2 = 0 := Nat.even_iff.mp he
      have hpar1 : (lodK 14 d + 1) % 2 = 1 := by omega
      have hshift : (lodK 14 d + 1) / 2 = lodK 14 d / 2 := by omega
      rw [hpar, hpar1, hshift]
      rw [hpar] at hstep1
      apply Int.ediv_le_ediv (pow_pos (by norm_num) _)
      exact le_trans generate_lut_even255_ge_odd0 hstep1
    · -- odd k: the shift increases by one, lut[0][0] = 32768 and
      -- lut[1][255] >= 16384 = 32768 >> 1
      have hpar : lodK 14 d % 2 = 1 := Nat.odd_iff.mp ho
      have hpar1 : (lodK 14 d + 1) % 2 = 0 := by omega
      have hshift : (lodK 14 d + 1) / 2 = lodK 14 d / 2 + 1 := by omega
      rw [hpar, hpar1, hshift]
      have hz : (0 : ℕ) * 256 + 0 = 0 := by norm_num
      rw [hz, generate_lut_zero]
      have hhalf : (32768 : ℤ) / 2 ^ (lodK 14 d / 2 + 1) = 16384 / 2 ^ (lodK 14 d / 2) := by
        rw [show ((32768 : ℤ)) = 2 * 16384 by norm_num,
          show ((2 : ℤ)) ^ (lodK 14 d / 2 + 1) = 2 * 2 ^ (lodK 14 d / 2) by rw [pow_succ]; ring,
          Int.mul_ediv_mul_of_pos _ _ (by norm_num)]
      rw [hhalf]
      rw [hpar] at hstep1
      calc (16384 : ℤ) / 2 ^ (lodK 14 d / 2)
          ≤ generate_lut (1 * 256 + 255) / 2 ^ (lodK 14 d / 2) :=
            Int.ediv_le_ediv (pow_pos (by norm_num) _) generate_lut_odd255_ge
      _ ≤ generate_lut (1 * 256 + (d * 2 ^ 8 / 2 ^ lodK 14 d - 256)) /
            2 ^ (lodK 14 d / 2) :=
            Int.ediv_le_ediv (pow_pos (by norm_num) _) hstep1

/-- C3: with the LUT produced by the generator, the LOD-LUT-Shift
inverse square root is non-increasing in the unsigned input over the
whole configured 14-bit width, for positive inputs. -/
theorem inv_sqrt_monotone (d d2 : ℕ) (h1 : 0 < d) (h2 : d ≤ d2) (h3 : d2 < 2 ^ 14) :
    golden_inv_sqrt 14 generate_lut d2 ≤ golden_inv_sqrt 14 generate_lut d := by
  revert h3
  induction d2, h2 using Nat.le_induction with
  | base => intro _; exact le_rfl
  | succ n hdn ih =>
    intro h3
    exact le_trans (inv_sqrt_step n (by omega) h3) (ih (by omega))

/-- Witness for C3 at inputs 1 and 2. -/
theorem inv_sqrt_monotone_witness :
    0 < 1 ∧ 1 ≤ 2 ∧ 2 < 2 ^ 14 ∧
      golden_inv_sqrt 14 generate_lut 2 ≤ golden_inv_sqrt 14 generate_lut 1 :=
  ⟨by norm_num, by norm_num, by norm_num,
    inv_sqrt_monotone 1 2 (by norm_num) (by norm_num) (by norm_num)⟩

end RedEyes
